import Mathlib

/-!
Verification of the Number Volume Space math engine.

This file embeds the pure math engine of `src/App.tsx` (sieve tables,
wave decomposition, factorization, classification rules and the
prime-bending relation) as executable Lean definitions and proves, or
refutes, the specification claims about them.

Modelling conventions:
* JavaScript numbers are modelled as `Int` (or `Nat` for magnitudes
  and indices); every arithmetic expression of the source stays within
  exact-integer range, except where an out-of-range array lookup
  yields `undefined`.  An array lookup that may be `undefined` is
  modelled with `List.get?` / `List.getD` (`undefined` is falsy, so a
  boolean read of a missing entry is `false`); a number that may be
  `NaN` is modelled as `Option Int` (`none` = `NaN`); a thrown
  JavaScript exception (destructuring `undefined`) is an
  `Option`-valued result being `none`.
* The imperative loops of the source are written as structurally
  recursive functions with an explicit fuel argument that is always
  sufficient, so that everything reduces in the kernel.
-/

/-- `MAX_N` from the source: the sieve bound. -/
def MAX_N : Nat := 1680

/-- The inner marking loop of the Eratosthenes sieve,
`for (let j = i*i; j <= MAX_N; j += i) p[j] = false;`, translated as a
single pass over the table that sets every position `j` with
`i*i ≤ j` and `i ∣ j` to `false` — exactly the positions the loop
writes (the table has length `MAX_N + 1`, so the loop bound `j ≤ MAX_N`
is the end of the list).  The first argument is the divisor `i`, the
second the index of the first list cell. -/
def markMultiples (i : Nat) : Nat → List Bool → List Bool
  | _, [] => []
  | j, b :: rest =>
    (if i * i ≤ j ∧ j % i = 0 then false else b) :: markMultiples i (j + 1) rest

/-- The outer loop of the sieve:
`for (let i = 2; i*i <= MAX_N; i++) if (p[i]) <mark multiples of i>`. -/
def sieveLoop : Nat → List Bool → Nat → List Bool
  | 0, l, _ => l
  | fuel + 1, l, i =>
    if i * i ≤ MAX_N then
      sieveLoop fuel (if l.getD i false then markMultiples i 0 l else l) (i + 1)
    else l

/-- `IS_PRIME` from the source: the boolean primality table of size
`MAX_N + 1`, positions `0` and `1` pre-marked non-prime.  A lookup
beyond the table (`IS_PRIME[abs]` with `abs > MAX_N`) is `undefined`
in JavaScript, which is falsy; we therefore read the table with
`List.getD · false` everywhere it is used in a boolean position. -/
def IS_PRIME : List Bool :=
  sieveLoop (MAX_N + 1) (false :: false :: List.replicate (MAX_N - 1) true) 2

/-- The prefix-sum recurrence building the `PRIME_COUNT` table of
the source: `c[0] = 0`, `c[i] = c[i-1] + (IS_PRIME[i] ? 1 : 0)`. -/
def countUpTo : Nat → Nat
  | 0 => 0
  | i + 1 => countUpTo i + (if IS_PRIME.getD (i + 1) false then 1 else 0)

/-- `PRIME_COUNT` from the source: entry `i` is the number of primes
`≤ i`, for `0 ≤ i ≤ MAX_N`. -/
def PRIME_COUNT : List Nat := (List.range (MAX_N + 1)).map countUpTo

/-- `isTransparent(n)`: `abs > 1 && PRIME_COUNT[abs] % 2 === 1`.
For `abs > MAX_N` the lookup is `undefined`, `undefined % 2` is `NaN`,
and `NaN === 1` is `false`; hence the `Option.elim false`. -/
def isTransparent (n : Int) : Bool :=
  let abs := n.natAbs
  decide (1 < abs) && (PRIME_COUNT.get? abs).elim false (fun c => c % 2 == 1)

/-- `waveLeft(n, k)`: triangle wave of period `2k`;
`m = |n| mod 2k`, result `k - min(m, 2k - m)`. -/
def waveLeft (n : Int) (k : Nat) : Int :=
  let m : Nat := n.natAbs % (2 * k)
  (k : Int) - ((min m (2 * k - m) : Nat) : Int)

/-- The split record returned by `getSplit`.  `L`, `R` and the
orthogonal components are `Option Int` because they become `NaN` when
`offsets[dimension]` is `undefined` (dimension outside `0..5`). -/
structure Split where
  L : Option Int
  R : Option Int
  orthogonal : List (Option Int × Option Int)
  baseL : Int
  w2 : Int
  w3 : Int
  w5 : Int
  w7 : Int
deriving DecidableEq

/-- The dimension-based offsets for the 2-beat anchor
(`-0` in the source is numerically `0`). -/
def offsets : List Int := [2, 1, 0, -2, -1, -0]

/-- `getSplit(n, dimension)`: the 17-split.  When `dimension` is
outside `0..5` the source reads `offsets[dimension] = undefined` and
`L`, `R` and every orthogonal component evaluate to `NaN` (modelled as
`none`); the wave fields are computed before the lookup and are
unaffected. -/
def getSplit (n : Int) (dimension : Nat) : Split :=
  let w2 := waveLeft n 2
  let w3 := waveLeft n 3
  let w5 := waveLeft n 5
  let w7 := waveLeft n 7
  let baseL := w3 + w5 + w7
  match offsets.get? dimension with
  | none =>
    { L := none, R := none, orthogonal := List.replicate 6 (none, none),
      baseL := baseL, w2 := w2, w3 := w3, w5 := w5, w7 := w7 }
  | some off =>
    let L : Int := if dimension < 3 then baseL + off else 17 - (baseL + |off|)
    let R : Int := 17 - L
    { L := some L, R := some R,
      orthogonal := [
        (some L, some R),
        (some (max 0 (L - 1)), some (min 17 (R + 1))),
        (some (max 0 (L - 2)), some (min 17 (R + 2))),
        (some R, some L),
        (some (min 17 (R + 1)), some (max 0 (L - 1))),
        (some (min 17 (R + 2)), some (max 0 (L - 2)))],
      baseL := baseL, w2 := w2, w3 := w3, w5 := w5, w7 := w7 }

/-- The inner `while (m % p === 0) { f[p]++; m /= p; }` of
`getFactorization`: fully divide `p` out of `m`, returning the
remaining cofactor and the exponent.  The fuel (first argument) always
exceeds the exponent at every call site. -/
def divOut : Nat → Nat → Nat → Nat × Nat
  | 0, m, _ => (m, 0)
  | fuel + 1, m, p =>
    if m % p = 0 then
      let r := divOut fuel (m / p) p
      (r.1, r.2 + 1)
    else (m, 0)

/-- The trial-division loop of `getFactorization`:
`for (let p = 2; p * p <= m; p++) <divide p out>`, and if a remainder
`> 1` survives it is appended with exponent 1.  The JavaScript object
`f` keyed by ascending integers is modelled as an association list in
ascending key order. -/
def factorLoop : Nat → Nat → Nat → List (Nat × Nat)
  | 0, m, _ => if 1 < m then [(m, 1)] else []
  | fuel + 1, m, p =>
    if p * p ≤ m then
      let r := divOut m m p
      if r.2 = 0 then factorLoop fuel r.1 (p + 1)
      else (p, r.2) :: factorLoop fuel r.1 (p + 1)
    else if 1 < m then [(m, 1)] else []

/-- `getFactorization` on a magnitude: empty for `abs < 2`, otherwise
the trial-division factorization. -/
def getFactorizationAbs (a : Nat) : List (Nat × Nat) :=
  if a < 2 then [] else factorLoop a a 2

/-- `getFactorization(n)` from the source (`abs = Math.abs(n)`). -/
def getFactorization (n : Int) : List (Nat × Nat) :=
  getFactorizationAbs n.natAbs

/-- The loop of `isPrimePower`: scan `p = 2 .. abs` for the first
entry with `IS_PRIME[p]` and `p ∣ abs`, then report whether dividing
`p` out completely leaves `1`. -/
def isPrimePowerLoop : Nat → Nat → Nat → Bool
  | 0, _, _ => false
  | fuel + 1, a, p =>
    if p ≤ a then
      if IS_PRIME.getD p false = false then isPrimePowerLoop fuel a (p + 1)
      else if a % p ≠ 0 then isPrimePowerLoop fuel a (p + 1)
      else decide ((divOut a a p).1 = 1)
    else false

/-- `isPrimePower(abs)` from the source. -/
def isPrimePower (a : Nat) : Bool :=
  if a < 2 then false else isPrimePowerLoop a a 2

/-- One entry of `COLOR_MAP`: only `label` is semantically
load-bearing; `bg`, `text` and `glow` are presentation. -/
structure ColorInfo where
  label : String
  bg : String
  text : String
  glow : String
deriving DecidableEq

/-- `COLOR_MAP` from the source, in order (indices 0..15). -/
def COLOR_MAP : List ColorInfo := [
  ⟨"Zero", "#0D0D1A", "#4A4A6A", ""⟩,
  ⟨"One", "#0F0F1F", "#3A3A5A", ""⟩,
  ⟨"Prime", "#0A0A12", "#5A5A72", "rgba(150,150,200,0.15)"⟩,
  ⟨"PrimePow", "#0C0C18", "#4A4A62", "rgba(120,120,180,0.1)"⟩,
  ⟨"Colorless", "#08080C", "#3A3A4A", ""⟩,
  ⟨"Blue", "#001E48", "#60B4FF", "rgba(60,140,255,0.4)"⟩,
  ⟨"Yellow", "#3A2F00", "#FFE040", "rgba(255,220,0,0.4)"⟩,
  ⟨"Red", "#3A0008", "#FF7080", "rgba(255,60,80,0.4)"⟩,
  ⟨"Green", "#003D20", "#80FFB0", "rgba(0,255,100,0.3)"⟩,
  ⟨"Purple", "#25004A", "#D090FF", "rgba(160,80,255,0.35)"⟩,
  ⟨"Orange", "#4A2000", "#FFAA60", "rgba(255,140,0,0.35)"⟩,
  ⟨"Brown", "#3E1A0A", "#D7A080", "rgba(180,100,40,0.3)"⟩,
  ⟨"Silver", "#404050", "#D0D0E0", "rgba(192,192,220,0.25)"⟩,
  ⟨"Gold", "#7A6000", "#FFE57F", "rgba(255,215,0,0.4)"⟩,
  ⟨"Golden Brown", "#7C5800", "#FFE082", "rgba(255,200,0,0.3)"⟩,
  ⟨"Composite", "#141420", "#606080", ""⟩]

/-- Indexing into `COLOR_MAP`; every index the source uses is in
range, so the default is never produced on any path of the source. -/
def colorAt (i : Nat) : ColorInfo := COLOR_MAP.getD i ⟨"", "", "", ""⟩

/-- `isColorless(n)` from the source, on the magnitude. -/
def isColorlessAbs (a : Nat) : Bool :=
  if a < 2 ∨ IS_PRIME.getD a false = true then false
  else if a = 2 ∨ a = 3 ∨ a = 5 ∨ a = 7 then false
  else if a % 2 = 0 then false
  else
    let factors := getFactorizationAbs a
    let keys := factors.map Prod.fst
    let totalFactors := (factors.map Prod.snd).sum
    if keys.length = 1 then
      let q := (factors.map Prod.snd).headD 0
      if IS_PRIME.getD q false = true ∧ q % 2 = 0 then false
      else if IS_PRIME.getD q false = true ∧ q % 2 ≠ 0 then true
      else if totalFactors = 2 ∧ keys.length = 2 then true
      else false
    else if totalFactors = 2 ∧ keys.length = 2 then true
    else false

/-- `isColorless(n)` (`abs = Math.abs(n)`). -/
def isColorless (n : Int) : Bool := isColorlessAbs n.natAbs

/-- The dimension-based color shift table for the roles `c2, c3, c7`
(indices into `COLOR_MAP`). -/
def shifts : List (List Nat) := [
  [5, 6, 7],
  [6, 7, 5],
  [7, 5, 6],
  [5, 7, 6],
  [6, 5, 7],
  [7, 6, 5]]

/-- `getColorInfo(n, dimension)` from the source.  The result is
`none` exactly when the source throws: for `abs ≥ 2` and a dimension
outside `0..5`, destructuring `shifts[dimension] = undefined` raises a
`TypeError`.  The `abs === 0` and `abs === 1` early returns happen
before that destructuring. -/
def getColorInfo (n : Int) (dimension : Nat) : Option ColorInfo :=
  let a := n.natAbs
  let isNeg := decide (n < 0)
  if a = 0 then some (colorAt 0)
  else if a = 1 then some (colorAt 1)
  else
    match shifts.get? dimension with
    | none => none
    | some sh =>
      let c2 := sh.getD 0 0
      let c3 := sh.getD 1 0
      let c7 := sh.getD 2 0
      let cGreen := 8
      let cPurple := 9
      let cOrange := 10
      let cBrown := 11
      if a % 2 = 0 ∧ a % 3 = 0 ∧ a % 5 = 0 ∧ a % 7 = 0 then some (colorAt 14)
      else if a % 2 = 0 ∧ a % 5 = 0 then some (colorAt 13)
      else if a % 5 = 0 then some (colorAt 12)
      else
        let b2 := decide (a % 2 = 0)
        let b3 := decide (a % 3 = 0)
        let b7 := decide (a % 7 = 0)
        let tail :=
          if a = 2 then some (colorAt c2)
          else if a = 3 then some (colorAt c3)
          else if a = 7 then some (colorAt c7)
          else if isColorless n then some (colorAt 4)
          else if IS_PRIME.getD a false then some (colorAt 2)
          else if isPrimePower a then some (colorAt 3)
          else some (colorAt 15)
        if isNeg then
          if b2 && b3 && b7 then some (colorAt cBrown)
          else if b3 && b7 then some (colorAt c2)
          else if b2 && b3 then some (colorAt c7)
          else if b2 && b7 then some (colorAt c3)
          else if b2 then some (colorAt cOrange)
          else if b3 then some (colorAt cPurple)
          else if b7 then some (colorAt cGreen)
          else tail
        else
          if b2 && b3 && b7 then some (colorAt cBrown)
          else if b3 && b7 then some (colorAt cOrange)
          else if b2 && b3 then some (colorAt cGreen)
          else if b2 && b7 then some (colorAt cPurple)
          else if b2 then some (colorAt c2)
          else if b3 then some (colorAt c3)
          else if b7 then some (colorAt c7)
          else tail

/-- The prime-bending record computed in `selectedDetail`
(`cyclePos`, `bendingCounterpart`, quad-anchor flag, `bendingPair`). -/
structure Bending where
  cyclePos : Nat
  bendingCounterpart : Nat
  isBendingPrime : Bool
  bendingPair : Option Nat
deriving DecidableEq

/-- The fixed quad-anchor residue set of the source. -/
def BENDING_ANCHORS : List Nat := [11, 13, 17, 19, 191, 193, 197, 199]

/-- The prime-bending computation from `selectedDetail`:
`cyclePos = abs % 210`, `bendingCounterpart = (210 - cyclePos) % 210`,
the quad-anchor flag, and `bendingPair` (`null` modelled as `none`). -/
def primeBending (n : Int) : Bending :=
  let a := n.natAbs
  let cyclePos := a % 210
  let isBendingPrime := decide (cyclePos ∈ BENDING_ANCHORS)
  { cyclePos := cyclePos
    bendingCounterpart := (210 - cyclePos) % 210
    isBendingPrime := isBendingPrime
    bendingPair := if isBendingPrime then some (210 - cyclePos) else none }

/-- The mathematical statement of the claimed characterization of
colorlessness: the magnitude is an odd composite, not `2,3,5,7`, and
is either a prime raised to an odd prime exponent, or a product of two
distinct primes (each to the first power). -/
def ColorlessSpec (m : Nat) : Prop :=
  Odd m ∧ 2 ≤ m ∧ ¬ Nat.Prime m ∧ m ≠ 2 ∧ m ≠ 3 ∧ m ≠ 5 ∧ m ≠ 7 ∧
    ((∃ p q : Nat, Nat.Prime p ∧ Nat.Prime q ∧ Odd q ∧ m = p ^ q) ∨
     (∃ p q : Nat, Nat.Prime p ∧ Nat.Prime q ∧ p ≠ q ∧ m = p * q))

theorem markMultiples_length (i : Nat) :
    ∀ (j : Nat) (l : List Bool), (markMultiples i j l).length = l.length := by
  intro j l
  induction l generalizing j with
  | nil => rfl
  | cons b rest ih => simp [markMultiples, ih]

theorem markMultiples_getD (i : Nat) :
    ∀ (l : List Bool) (j x : Nat), x < l.length →
      (markMultiples i j l).getD x false
        = if i * i ≤ j + x ∧ (j + x) % i = 0 then false else l.getD x false := by
  intro l
  induction l with
  | nil => intro j x hx; simp at hx
  | cons b rest ih =>
    intro j x hx
    cases x with
    | zero => simp [markMultiples]
    | succ x =>
      simp only [markMultiples, List.getD_cons_succ]
      rw [ih (j + 1) x (by simpa using hx)]
      have : j + 1 + x = j + (x + 1) := by omega
      rw [this]

theorem sieveLoop_length :
    ∀ (fuel : Nat) (l : List Bool) (i : Nat), (sieveLoop fuel l i).length = l.length := by
  intro fuel
  induction fuel with
  | zero => intro l i; rfl
  | succ fuel ih =>
    intro l i
    simp only [sieveLoop]
    split
    · rw [ih]
      split
      · rw [markMultiples_length]
      · rfl
    · rfl

/-- Marking never revives a cell: a `false` entry stays `false`. -/
theorem sieveLoop_false_mono :
    ∀ (fuel : Nat) (l : List Bool) (i x : Nat), l.getD x false = false →
      (sieveLoop fuel l i).getD x false = false := by
  intro fuel
  induction fuel with
  | zero => intro l i x h; exact h
  | succ fuel ih =>
    intro l i x h
    simp only [sieveLoop]
    split
    · apply ih
      split
      · by_cases hx : x < l.length
        · rw [markMultiples_getD i l 0 x hx]
          split
          · rfl
          · simpa using h
        · have hlen : (markMultiples i 0 l).length = l.length := markMultiples_length i 0 l
          rw [List.getD_eq_default]
          omega
      · exact h
    · exact h

/-- A prime position is never marked: once its entry is `true` it stays
`true` through every layer of the outer loop with counter `≥ 2`. -/
theorem sieveLoop_prime_stays :
    ∀ (fuel : Nat) (l : List Bool) (i x : Nat), 2 ≤ i → Nat.Prime x →
      l.getD x false = true → (sieveLoop fuel l i).getD x false = true := by
  intro fuel
  induction fuel with
  | zero => intro l i x _ _ h; exact h
  | succ fuel ih =>
    intro l i x hi hp h
    simp only [sieveLoop]
    split
    · apply ih _ _ _ (by omega) hp
      split
      · have hx : x < l.length := by
          by_contra hc
          rw [List.getD_eq_default] at h
          · simp at h
          · omega
        rw [markMultiples_getD i l 0 x hx]
        split
        · rename_i hcond
          exfalso
          obtain ⟨hle, hmod⟩ := hcond
          simp only [Nat.zero_add] at hle hmod
          have hdvd : i ∣ x := Nat.dvd_iff_mod_eq_zero.mpr hmod
          have := (Nat.Prime.eq_one_or_self_of_dvd hp i hdvd)
          rcases this with h1 | hself
          · omega
          · subst hself
            have := hp.two_le
            nlinarith
        · simpa using h
      · exact h
    · exact h

/-- If the outer loop reaches the (unmarked, prime) counter `p` before
running out of fuel or passing the `i*i ≤ MAX_N` bound, then every
multiple `x` of `p` with `p*p ≤ x` inside the table is marked. -/
theorem sieveLoop_marks_composite :
    ∀ (fuel : Nat) (l : List Bool) (i p x : Nat),
      2 ≤ i → i ≤ p → p + 1 ≤ i + fuel → Nat.Prime p → p ∣ x → p * p ≤ x →
      x ≤ MAX_N → x < l.length → l.getD p false = true →
      (sieveLoop fuel l i).getD x false = false := by
  intro fuel
  induction fuel with
  | zero => intro l i p x _ _ hfuel _ _ _ _ _ _; omega
  | succ fuel ih =>
    intro l i p x hi hip hfuel hp hdvd hsq hmax hlen hptrue
    have hiisq : i * i ≤ MAX_N := by
      have h1 : i * i ≤ p * p := Nat.mul_le_mul hip hip
      omega
    simp only [sieveLoop, if_pos hiisq]
    by_cases hip' : i = p
    · subst hip'
      rw [if_pos hptrue]
      apply sieveLoop_false_mono
      rw [markMultiples_getD i l 0 x hlen]
      rw [if_pos]
      constructor
      · simpa using hsq
      · simpa using Nat.dvd_iff_mod_eq_zero.mp hdvd
    · have hilt : i < p := by omega
      apply ih _ (i + 1) p x (by omega) (by omega) (by omega) hp hdvd hsq hmax
      · split
        · rw [markMultiples_length]; exact hlen
        · exact hlen
      · split
        · have h2p := hp.two_le
          have hppx : p ≤ p * p := by nlinarith
          have hplen : p < l.length := by omega
          rw [markMultiples_getD i l 0 p hplen]
          split
          · rename_i hcond
            exfalso
            obtain ⟨hle, hmod⟩ := hcond
            simp only [Nat.zero_add] at hle hmod
            have hdvd' : i ∣ p := Nat.dvd_iff_mod_eq_zero.mpr hmod
            rcases Nat.Prime.eq_one_or_self_of_dvd hp i hdvd' with h1 | hself
            · omega
            · omega
          · simpa using hptrue
        · exact hptrue

/-- The initial table: `0` and `1` pre-marked, everything else `true`. -/
theorem init_getD (x : Nat) :
    (false :: false :: List.replicate (MAX_N - 1) true).getD x false
      = decide (2 ≤ x ∧ x ≤ MAX_N) := by
  match x with
  | 0 => rfl
  | 1 => rfl
  | x + 2 =>
    simp only [List.getD_cons_succ]
    by_cases hx : x < MAX_N - 1
    · rw [List.getD_eq_getElem _ _ (by simpa using hx)]
      simp only [List.getElem_replicate]
      have : 2 ≤ x + 2 ∧ x + 2 ≤ MAX_N := by constructor <;> [omega; omega]
      simp [this]
    · rw [List.getD_eq_default _ _ (by simpa using hx)]
      have : ¬(x + 2 ≤ MAX_N) := by
        simp only [MAX_N] at hx ⊢
        omega
      simp [this]

/-- Correctness of the sieve: the table holds `true` at `x` exactly
when `x` is prime and within the table. -/
theorem IS_PRIME_getD (x : Nat) :
    IS_PRIME.getD x false = true ↔ Nat.Prime x ∧ x ≤ MAX_N := by
  constructor
  · intro h
    have hlen : IS_PRIME.length = MAX_N + 1 := by
      rw [IS_PRIME, sieveLoop_length]
      simp only [List.length_cons, List.length_replicate, MAX_N]
    have hxle : x ≤ MAX_N := by
      by_contra hc
      rw [List.getD_eq_default] at h
      · simp at h
      · omega
    refine ⟨?_, hxle⟩
    by_contra hnp
    have hx2 : 2 ≤ x := by
      rcases Nat.lt_or_ge x 2 with h2 | h2
      · interval_cases x <;> simp_all [IS_PRIME]
        · have := sieveLoop_false_mono (MAX_N + 1)
            (false :: false :: List.replicate (MAX_N - 1) true) 2 0 (by rfl)
          simp_all
        · have := sieveLoop_false_mono (MAX_N + 1)
            (false :: false :: List.replicate (MAX_N - 1) true) 2 1 (by rfl)
          simp_all
      · exact h2
    -- x is composite; its least prime factor p satisfies p*p ≤ x
    have hx1 : x ≠ 1 := by omega
    have hpos : 0 < x := by omega
    have hpf : Nat.Prime x.minFac := Nat.minFac_prime hx1
    have hdvd : x.minFac ∣ x := Nat.minFac_dvd x
    have hsq : x.minFac * x.minFac ≤ x := by
      have := Nat.minFac_sq_le_self hpos hnp
      simpa [Nat.pow_two] using this
    have hmark := sieveLoop_marks_composite (MAX_N + 1)
      (false :: false :: List.replicate (MAX_N - 1) true) 2 x.minFac x
      (by omega) hpf.two_le ?_ hpf hdvd hsq hxle ?_ ?_
    · rw [IS_PRIME] at h
      rw [hmark] at h
      simp at h
    · have : x.minFac ≤ x := Nat.minFac_le hpos
      simp only [MAX_N] at hxle ⊢
      omega
    · simp only [List.length_cons, List.length_replicate, MAX_N]
      simp only [MAX_N] at hxle
      omega
    · rw [init_getD]
      have : x.minFac ≤ MAX_N := by
        have h1 : x.minFac ≤ x := Nat.minFac_le hpos
        omega
      simp [hpf.two_le, this]
  · rintro ⟨hp, hle⟩
    rw [IS_PRIME]
    apply sieveLoop_prime_stays _ _ _ _ (by omega) hp
    rw [init_getD]
    simp [hp.two_le, hle]

theorem PRIME_COUNT_get?_of_le (m : Nat) (h : m ≤ MAX_N) :
    PRIME_COUNT.get? m = some (countUpTo m) := by
  rw [PRIME_COUNT, List.get?_map, List.get?_range (by omega)]
  rfl

theorem PRIME_COUNT_get?_of_gt (m : Nat) (h : MAX_N < m) :
    PRIME_COUNT.get? m = none := by
  rw [PRIME_COUNT, List.get?_map, List.get?_eq_none.mpr]
  · rfl
  · simpa using h

theorem countUpTo_eq (m : Nat) (h : m ≤ MAX_N) :
    countUpTo m = Nat.count Nat.Prime (m + 1) := by
  induction m with
  | zero => decide
  | succ m ih =>
    rw [countUpTo, ih (by omega)]
    conv_rhs => rw [Nat.count_succ]
    by_cases hp : Nat.Prime (m + 1)
    · have ht : IS_PRIME.getD (m + 1) false = true :=
        (IS_PRIME_getD (m + 1)).mpr ⟨hp, h⟩
      rw [ht]
      simp [hp]
    · have hf : IS_PRIME.getD (m + 1) false = false := by
        rcases hb : IS_PRIME.getD (m + 1) false with _ | _
        · rfl
        · exact absurd ((IS_PRIME_getD (m + 1)).mp hb).1 hp
      rw [hf]
      simp [hp]

/-- C7: for magnitudes within the sieve, transparency holds exactly
when the magnitude exceeds 1 and the number of primes up to it is odd;
and transparency is sign-independent for every integer. -/
theorem isTransparent_spec (n : Int) :
    (n.natAbs ≤ MAX_N →
      (isTransparent n = true ↔
        1 < n.natAbs ∧ Odd (((Finset.range (n.natAbs + 1)).filter Nat.Prime).card))) ∧
    isTransparent (-n) = isTransparent n := by
  constructor
  · intro h
    rw [isTransparent]
    simp only [Bool.and_eq_true, decide_eq_true_iff]
    rw [PRIME_COUNT_get?_of_le _ h]
    simp only [Option.elim_some]
    rw [countUpTo_eq _ h]
    rw [Nat.count_eq_card_filter_range]
    constructor
    · rintro ⟨h1, h2⟩
      refine ⟨h1, ?_⟩
      rw [Nat.odd_iff]
      simpa using h2
    · rintro ⟨h1, h2⟩
      refine ⟨h1, ?_⟩
      rw [Nat.odd_iff] at h2
      simpa using h2
  · rw [isTransparent, isTransparent, Int.natAbs_neg]

/-- C7 witness at `n = 2` (one prime `≤ 2`, an odd count). -/
theorem isTransparent_spec_witness :
    (2 : Int).natAbs ≤ MAX_N ∧
      (isTransparent 2 = true ↔
        1 < (2 : Int).natAbs ∧
          Odd (((Finset.range ((2 : Int).natAbs + 1)).filter Nat.Prime).card)) :=
  ⟨by decide, (isTransparent_spec 2).1 (by decide)⟩

theorem waveLeft_bounds (n : Int) (k : Nat) (hk : 1 ≤ k) :
    0 ≤ waveLeft n k ∧ waveLeft n k ≤ (k : Int) := by
  rw [waveLeft]
  have h1 : n.natAbs % (2 * k) < 2 * k := Nat.mod_lt _ (by omega)
  omega

theorem waveLeft_period_3 (n : Int) : waveLeft (n + 210) 3 = waveLeft n 3 := by
  rw [waveLeft, waveLeft]
  omega

theorem waveLeft_period_5 (n : Int) : waveLeft (n + 210) 5 = waveLeft n 5 := by
  rw [waveLeft, waveLeft]
  omega

theorem waveLeft_period_7 (n : Int) : waveLeft (n + 210) 7 = waveLeft n 7 := by
  rw [waveLeft, waveLeft]
  omega

theorem getSplit_valid (n : Int) (d : Nat) (hd : d < 6) :
    ∃ L : Int, 0 ≤ L ∧ L ≤ 17 ∧
      (getSplit n d).L = some L ∧ (getSplit n d).R = some (17 - L) ∧
      (getSplit n d).orthogonal = [
        (some L, some (17 - L)),
        (some (max 0 (L - 1)), some (min 17 (17 - L + 1))),
        (some (max 0 (L - 2)), some (min 17 (17 - L + 2))),
        (some (17 - L), some L),
        (some (min 17 (17 - L + 1)), some (max 0 (L - 1))),
        (some (min 17 (17 - L + 2)), some (max 0 (L - 2)))] := by
  obtain ⟨h30, h3⟩ := waveLeft_bounds n 3 (by omega)
  obtain ⟨h50, h5⟩ := waveLeft_bounds n 5 (by omega)
  obtain ⟨h70, h7⟩ := waveLeft_bounds n 7 (by omega)
  interval_cases d <;>
    refine ⟨_, ?_, ?_, rfl, rfl, rfl⟩ <;>
    · simp only [abs]
      omega

/-- C2: for every integer and every dimension in `0..5`, the primary
split is a pair of genuine numbers with `L + R = 17` and both sides in
`[0, 17]`. -/
theorem getSplit_primary_sum (n : Int) (dimension : Nat) (hd : dimension < 6) :
    ∃ l r : Int, (getSplit n dimension).L = some l ∧ (getSplit n dimension).R = some r ∧
      l + r = 17 ∧ 0 ≤ l ∧ l ≤ 17 ∧ 0 ≤ r ∧ r ≤ 17 := by
  obtain ⟨L, h0, h17, hL, hR, _⟩ := getSplit_valid n dimension hd
  exact ⟨L, 17 - L, hL, hR, by omega, h0, h17, by omega, by omega⟩

/-- C2 witness at `n = 5`, dimension 0. -/
theorem getSplit_primary_sum_witness :
    ∃ l r : Int, (getSplit 5 0).L = some l ∧ (getSplit 5 0).R = some r ∧
      l + r = 17 ∧ 0 ≤ l ∧ l ≤ 17 ∧ 0 ≤ r ∧ r ≤ 17 :=
  getSplit_primary_sum 5 0 (by decide)

/-- C9 (amended): every orthogonal entry of a valid-dimension split —
including the clamped entries 1 and 2 — sums to exactly 17; the
independent clamping never actually breaks the invariant because both
sides reach their bounds simultaneously. -/
theorem getSplit_orthogonal_sum (n : Int) (d i : Nat) (hd : d < 6) (hi : i < 6) :
    ∃ l r : Int, (getSplit n d).orthogonal.get? i = some (some l, some r) ∧ l + r = 17 := by
  obtain ⟨L, h0, h17, _, _, ho⟩ := getSplit_valid n d hd
  rw [ho]
  interval_cases i
  · exact ⟨L, 17 - L, rfl, by omega⟩
  · exact ⟨max 0 (L - 1), min 17 (17 - L + 1), rfl, by omega⟩
  · exact ⟨max 0 (L - 2), min 17 (17 - L + 2), rfl, by omega⟩
  · exact ⟨17 - L, L, rfl, by omega⟩
  · exact ⟨min 17 (17 - L + 1), max 0 (L - 1), rfl, by omega⟩
  · exact ⟨min 17 (17 - L + 2), max 0 (L - 2), rfl, by omega⟩

/-- C9 witness at `n = 3`, dimension 0, orthogonal entry 1. -/
theorem getSplit_orthogonal_sum_witness :
    ∃ l r : Int, (getSplit 3 0).orthogonal.get? 1 = some (some l, some r) ∧ l + r = 17 :=
  getSplit_orthogonal_sum 3 0 1 (by decide) (by decide)

/-- C9 counterexample: the claimed violation does not exist — there is
no integer, valid dimension and clamped orthogonal entry (1 or 2)
whose sides fail to sum to 17. -/
theorem getSplit_orthogonal_no_violation :
    ¬ ∃ (n : Int) (d : Nat), d < 6 ∧ ∃ i, (i = 1 ∨ i = 2) ∧
      ∃ l r : Int, (getSplit n d).orthogonal.get? i = some (some l, some r) ∧ l + r ≠ 17 := by
  rintro ⟨n, d, hd, i, hi, l, r, hget, hsum⟩
  obtain ⟨l', r', hget', hsum'⟩ := getSplit_orthogonal_sum n d i hd (by omega)
  rw [hget] at hget'
  simp only [Option.some.injEq, Prod.mk.injEq] at hget'
  obtain ⟨hl, hr⟩ := hget'
  omega

/-- C10: the primary split is periodic in `n` with period 210 for
every dimension in `0..5` (its value is a genuine number, and only the
period-3, 5 and 7 waves feed `L` and `R`), even though the returned
2-wave field itself is not 210-periodic. -/
theorem getSplit_period_210 (n : Int) (d : Nat) (hd : d < 6) :
    (getSplit (n + 210) d).L = (getSplit n d).L ∧
      (getSplit (n + 210) d).R = (getSplit n d).R ∧
      ((getSplit n d).L).isSome = true ∧
      (getSplit 210 0).w2 ≠ (getSplit 0 0).w2 := by
  interval_cases d <;>
    refine ⟨?_, ?_, rfl, by decide⟩ <;>
    · show some _ = some _
      rw [waveLeft_period_3, waveLeft_period_5, waveLeft_period_7]

/-- C10 witness at `n = 1`, dimension 0. -/
theorem getSplit_period_210_witness :
    (getSplit (1 + 210) 0).L = (getSplit 1 0).L ∧
      (getSplit (1 + 210) 0).R = (getSplit 1 0).R ∧
      ((getSplit 1 0).L).isSome = true ∧
      (getSplit 210 0).w2 ≠ (getSplit 0 0).w2 :=
  getSplit_period_210 1 0 (by decide)

/-- C1 counterexample: at `n = 0`, dimension 0 the primary split is
`17|0` (since `baseL(0) = 15`), not the claimed `2|15`. -/
theorem getSplit_zero_not_2_15 :
    (getSplit 0 0).L ≠ some 2 ∧ (getSplit 0 0).R ≠ some 15 := by decide

/-- C1 (amended): at `n = 0`, dimension 0 the color label is "Zero"
and the split is `L = 17`, `R = 0`, because each wave has left value
`k` at 0, so `baseL(0) = 15`, and the dimension-0 anchor offset is
`+2`. -/
theorem getColorInfo_getSplit_zero :
    (getColorInfo 0 0).map ColorInfo.label = some "Zero" ∧
    (getSplit 0 0).L = some 17 ∧ (getSplit 0 0).R = some 0 ∧
    (getSplit 0 0).baseL = 15 := by decide

/-- C8: the prime-bending record satisfies `cyclePos = |n| mod 210`,
`counterpart = (210 - cyclePos) mod 210`, their sum is `0 mod 210`
(with counterpart 0 when cyclePos is 0), the quad-anchor flag holds
exactly on the fixed residue set, and `n = 17` yields `17 / 193 /`
flag set. -/
theorem primeBending_spec (n : Int) :
    (primeBending n).cyclePos = n.natAbs % 210 ∧
    (primeBending n).bendingCounterpart = (210 - n.natAbs % 210) % 210 ∧
    (((primeBending n).cyclePos = 0 ∧ (primeBending n).bendingCounterpart = 0) ∨
      ((primeBending n).cyclePos ≠ 0 ∧
        (primeBending n).cyclePos + (primeBending n).bendingCounterpart = 210)) ∧
    ((primeBending n).isBendingPrime = true ↔ n.natAbs % 210 ∈ BENDING_ANCHORS) ∧
    (primeBending 17).cyclePos = 17 ∧
    (primeBending 17).bendingCounterpart = 193 ∧
    (primeBending 17).isBendingPrime = true := by
  refine ⟨rfl, rfl, ?_, ?_, by decide, by decide, by decide⟩
  · show ((n.natAbs % 210 = 0 ∧ (210 - n.natAbs % 210) % 210 = 0) ∨
      (n.natAbs % 210 ≠ 0 ∧ n.natAbs % 210 + (210 - n.natAbs % 210) % 210 = 210))
    omega
  · show decide (n.natAbs % 210 ∈ BENDING_ANCHORS) = true ↔ _
    exact decide_eq_true_iff

/-- C5 counterexample: dimension 6 is invalid, yet classification does
not fail fast — `getColorInfo` returns the default "Zero" record at
`n = 0`, and `getSplit` still performs its wave computation
(`baseL = 15`) and returns a record whose `L` is `NaN` rather than
raising a configuration error. -/
theorem invalid_dimension_no_error :
    getColorInfo 0 6 = some (colorAt 0) ∧
    (getSplit 0 6).L = none ∧ (getSplit 0 6).baseL = 15 := by decide

/-- C5 (amended): an out-of-range dimension is never validated: the
split is computed and returned with `NaN` (`none`) in `L` and `R`
instead of an error, and `getColorInfo` fails only when it reaches the
shift-table destructuring (`|n| ≥ 2`) — for `|n| ≤ 1` it silently
returns the default "Zero" / "One" results. -/
theorem invalid_dimension_behavior (n : Int) (d : Nat) (hd : 6 ≤ d) :
    (getSplit n d).L = none ∧ (getSplit n d).R = none ∧
    (2 ≤ n.natAbs → getColorInfo n d = none) ∧
    (n.natAbs = 0 → getColorInfo n d = some (colorAt 0)) ∧
    (n.natAbs = 1 → getColorInfo n d = some (colorAt 1)) := by
  have hoff : offsets[d]? = none := by
    apply List.getElem?_eq_none
    simp only [offsets, List.length_cons, List.length_nil]
    omega
  have hsh : shifts[d]? = none := by
    apply List.getElem?_eq_none
    simp only [shifts, List.length_cons, List.length_nil]
    omega
  refine ⟨?_, ?_, ?_, ?_, ?_⟩
  · simp [getSplit, hoff]
  · simp [getSplit, hoff]
  · intro h2
    simp [getColorInfo, hsh, show n.natAbs ≠ 0 by omega, show n.natAbs ≠ 1 by omega]
  · intro h0
    simp [getColorInfo, h0]
  · intro h1
    simp [getColorInfo, h1]

/-- C5 amended witness at `n = 5`, `d = 6`. -/
theorem invalid_dimension_behavior_witness :
    (getSplit 5 6).L = none ∧ (getSplit 5 6).R = none ∧
    (2 ≤ (5 : Int).natAbs → getColorInfo 5 6 = none) ∧
    ((5 : Int).natAbs = 0 → getColorInfo 5 6 = some (colorAt 0)) ∧
    ((5 : Int).natAbs = 1 → getColorInfo 5 6 = some (colorAt 1)) :=
  invalid_dimension_behavior 5 6 (by decide)

/-- C4: for a negative number whose magnitude is divisible by exactly
two of 2, 3, 7 and not by 5, `getColorInfo` returns the base color of
the third, absent factor under the shift table of the dimension; in
particular `getColorInfo(-14, 0)` is "Yellow". -/
theorem getColorInfo_negative_pair (n : Int) (d : Nat) (hn : n < 0) (hd : d < 6)
    (h5 : ¬ (5 ∣ n.natAbs)) :
    ((2 ∣ n.natAbs ∧ 3 ∣ n.natAbs ∧ ¬ (7 ∣ n.natAbs)) →
      getColorInfo n d = some (colorAt ((shifts.getD d []).getD 2 0))) ∧
    ((2 ∣ n.natAbs ∧ 7 ∣ n.natAbs ∧ ¬ (3 ∣ n.natAbs)) →
      getColorInfo n d = some (colorAt ((shifts.getD d []).getD 1 0))) ∧
    ((3 ∣ n.natAbs ∧ 7 ∣ n.natAbs ∧ ¬ (2 ∣ n.natAbs)) →
      getColorInfo n d = some (colorAt ((shifts.getD d []).getD 0 0))) ∧
    (getColorInfo (-14) 0).map ColorInfo.label = some "Yellow" := by
  have e5 : n.natAbs % 5 ≠ 0 := fun h => h5 (Nat.dvd_of_mod_eq_zero h)
  have e0 : n.natAbs ≠ 0 := by
    intro h
    exact h5 (by simp [h])
  refine ⟨?_, ?_, ?_, by decide⟩
  · rintro ⟨h2, h3, h7⟩
    have e2 : n.natAbs % 2 = 0 := Nat.dvd_iff_mod_eq_zero.mp h2
    have e3 : n.natAbs % 3 = 0 := Nat.dvd_iff_mod_eq_zero.mp h3
    have e7 : n.natAbs % 7 ≠ 0 := fun h => h7 (Nat.dvd_of_mod_eq_zero h)
    have e1 : n.natAbs ≠ 1 := by
      intro h
      rw [h] at e2
      simp at e2
    interval_cases d <;>
      simp [getColorInfo, shifts, e0, e1, e2, e3, e5, e7, hn]
  · rintro ⟨h2, h7, h3⟩
    have e2 : n.natAbs % 2 = 0 := Nat.dvd_iff_mod_eq_zero.mp h2
    have e7 : n.natAbs % 7 = 0 := Nat.dvd_iff_mod_eq_zero.mp h7
    have e3 : n.natAbs % 3 ≠ 0 := fun h => h3 (Nat.dvd_of_mod_eq_zero h)
    have e1 : n.natAbs ≠ 1 := by
      intro h
      rw [h] at e2
      simp at e2
    interval_cases d <;>
      simp [getColorInfo, shifts, e0, e1, e2, e3, e5, e7, hn]
  · rintro ⟨h3, h7, h2⟩
    have e3 : n.natAbs % 3 = 0 := Nat.dvd_iff_mod_eq_zero.mp h3
    have e7 : n.natAbs % 7 = 0 := Nat.dvd_iff_mod_eq_zero.mp h7
    have e2 : n.natAbs % 2 ≠ 0 := fun h => h2 (Nat.dvd_of_mod_eq_zero h)
    have e1 : n.natAbs ≠ 1 := by
      intro h
      rw [h] at e3
      simp at e3
    interval_cases d <;>
      simp [getColorInfo, shifts, e0, e1, e2, e3, e5, e7, hn]

/-- C4 witness at `n = -14`, dimension 0: magnitude divisible by 2 and
7, not 3 or 5, and the returned label is the `c3` color "Yellow". -/
theorem getColorInfo_negative_pair_witness :
    (-14 : Int) < 0 ∧ ¬ (5 ∣ (-14 : Int).natAbs) ∧
      getColorInfo (-14) 0 = some (colorAt ((shifts.getD 0 []).getD 1 0)) ∧
      (colorAt ((shifts.getD 0 []).getD 1 0)).label = "Yellow" := by
  refine ⟨by decide, by decide, ?_, by decide⟩
  exact (getColorInfo_negative_pair (-14) 0 (by decide) (by decide) (by decide)).2.1
    ⟨by decide, by decide, by decide⟩

theorem divOut_spec :
    ∀ (fuel m p : Nat), 2 ≤ p → 1 ≤ m → m ≤ fuel →
      m = p ^ (divOut fuel m p).2 * (divOut fuel m p).1 ∧
      ¬ p ∣ (divOut fuel m p).1 ∧ 1 ≤ (divOut fuel m p).1 := by
  intro fuel
  induction fuel with
  | zero => intro m p hp hm hfuel; omega
  | succ fuel ih =>
    intro m p hp hm hfuel
    by_cases hdvd : m % p = 0
    · have hd : p ∣ m := Nat.dvd_of_mod_eq_zero hdvd
      have hmp1 : 1 ≤ m / p := Nat.div_pos (Nat.le_of_dvd (by omega) hd) (by omega)
      have hmpf : m / p ≤ fuel := by
        have : m / p < m := Nat.div_lt_self (by omega) (by omega)
        omega
      obtain ⟨h1, h2, h3⟩ := ih (m / p) p hp hmp1 hmpf
      simp only [divOut, if_pos hdvd]
      refine ⟨?_, h2, h3⟩
      calc m = m / p * p := (Nat.div_mul_cancel hd).symm
      _ = p ^ (divOut fuel (m / p) p).2 * (divOut fuel (m / p) p).1 * p := by rw [← h1]
      _ = p ^ ((divOut fuel (m / p) p).2 + 1) * (divOut fuel (m / p) p).1 := by ring
    · simp only [divOut, if_neg hdvd]
      exact ⟨by simp, fun hc => hdvd (Nat.dvd_iff_mod_eq_zero.mp hc), hm⟩

/-- The loop-exit situation of `factorLoop`: when no divisor below `p`
remains and `m < p*p`, the residue (if `> 1`) is a single prime. -/
theorem factorResidue_spec (m p : Nat) (hp : 2 ≤ p) (hm : 1 ≤ m)
    (hinv : ∀ d, 2 ≤ d → d < p → ¬ d ∣ m) (hlt : m < p * p) :
    (∀ pe ∈ (if 1 < m then [(m, 1)] else ([] : List (Nat × Nat))),
        Nat.Prime pe.1 ∧ 1 ≤ pe.2 ∧ p ≤ pe.1) ∧
    (((if 1 < m then [(m, 1)] else ([] : List (Nat × Nat))).map
        (fun pe => pe.1 ^ pe.2)).prod = m) ∧
    List.Pairwise (fun x y : Nat × Nat => x.1 < y.1)
      (if 1 < m then [(m, 1)] else ([] : List (Nat × Nat))) := by
  by_cases h1 : 1 < m
  · rw [if_pos h1]
    have hprime : Nat.Prime m := by
      by_contra hnp
      have hpos : 0 < m := by omega
      have hpf := Nat.minFac_prime (show m ≠ 1 by omega)
      have hdvd := Nat.minFac_dvd m
      have hsq : m.minFac * m.minFac ≤ m := by
        have := Nat.minFac_sq_le_self hpos hnp
        simpa [Nat.pow_two] using this
      have hlt' : m.minFac < p := by nlinarith
      exact hinv m.minFac hpf.two_le hlt' hdvd
    have hpm : p ≤ m := by
      by_contra hc
      exact hinv m (by omega) (by omega) dvd_rfl
    refine ⟨?_, by simp, by simp⟩
    rintro pe hpe
    simp only [List.mem_singleton] at hpe
    subst hpe
    exact ⟨hprime, by omega, hpm⟩
  · rw [if_neg h1]
    refine ⟨by simp, by simp; omega, by simp⟩

theorem factorLoop_spec :
    ∀ (fuel m p : Nat), 2 ≤ p → 1 ≤ m →
      (∀ d, 2 ≤ d → d < p → ¬ d ∣ m) → m < (p + fuel) * (p + fuel) →
      (∀ pe ∈ factorLoop fuel m p, Nat.Prime pe.1 ∧ 1 ≤ pe.2 ∧ p ≤ pe.1) ∧
      ((factorLoop fuel m p).map (fun pe => pe.1 ^ pe.2)).prod = m ∧
      List.Pairwise (fun x y : Nat × Nat => x.1 < y.1) (factorLoop fuel m p) := by
  intro fuel
  induction fuel with
  | zero =>
    intro m p hp hm hinv hbound
    simp only [factorLoop]
    exact factorResidue_spec m p hp hm hinv (by simpa using hbound)
  | succ fuel ih =>
    intro m p hp hm hinv hbound
    by_cases hpp : p * p ≤ m
    · simp only [factorLoop, if_pos hpp]
      obtain ⟨hrep, hnd, hm1⟩ := divOut_spec m m p hp hm (le_refl m)
      set e := (divOut m m p).2 with hedef
      set r := (divOut m m p).1 with hrdef
      have hbound' : m < (p + 1 + fuel) * (p + 1 + fuel) := by
        have h : p + 1 + fuel = p + (fuel + 1) := by omega
        rw [h]
        exact hbound
      by_cases he : e = 0
      · rw [if_pos he]
        have hr1 : r = m := by
          rw [he] at hrep
          simpa using hrep.symm
        have hndm : ¬ p ∣ m := hr1 ▸ hnd
        rw [hr1]
        have hinv' : ∀ d, 2 ≤ d → d < p + 1 → ¬ d ∣ m := by
          intro d hd2 hdp
          by_cases hdp' : d < p
          · exact hinv d hd2 hdp'
          · have hdp'' : d = p := by omega
            subst hdp''
            exact hndm
        obtain ⟨ha, hb, hc⟩ := ih m (p + 1) (by omega) hm hinv' hbound'
        exact ⟨fun pe hpe => ⟨(ha pe hpe).1, (ha pe hpe).2.1, by
          have := (ha pe hpe).2.2
          omega⟩, hb, hc⟩
      · rw [if_neg he]
        have hpdvd : p ∣ m := by
          rw [hrep]
          exact dvd_mul_of_dvd_left (dvd_pow_self p he) r
        have hpprime : Nat.Prime p := by
          rw [Nat.prime_def_lt']
          exact ⟨hp, fun d hd2 hdp hddvd => hinv d hd2 hdp (hddvd.trans hpdvd)⟩
        have hm'dvd : r ∣ m := by
          rw [hrep]
          exact dvd_mul_left r (p ^ e)
        have hinv' : ∀ d, 2 ≤ d → d < p + 1 → ¬ d ∣ r := by
          intro d hd2 hdp hddvd
          by_cases hdp' : d < p
          · exact hinv d hd2 hdp' (hddvd.trans hm'dvd)
          · have hdp'' : d = p := by omega
            subst hdp''
            exact hnd hddvd
        have hm'le : r ≤ m := Nat.le_of_dvd (by omega) hm'dvd
        obtain ⟨ha, hb, hc⟩ := ih r (p + 1) (by omega) hm1 hinv' (by omega)
        refine ⟨?_, ?_, ?_⟩
        · rintro pe hpe
          rcases List.mem_cons.mp hpe with h | h
          · subst h
            exact ⟨hpprime, by omega, le_refl p⟩
          · obtain ⟨ha1, ha2, ha3⟩ := ha pe h
            exact ⟨ha1, ha2, by omega⟩
        · simp only [List.map_cons, List.prod_cons, hb]
          exact hrep.symm
        · rw [List.pairwise_cons]
          refine ⟨fun pe hpe => ?_, hc⟩
          have := (ha pe hpe).2.2
          omega
    · simp only [factorLoop, if_neg hpp]
      exact factorResidue_spec m p hp hm hinv (by omega)

/-- The factorization of a magnitude `2 ≤ a`: every entry is a prime
with a positive exponent, the entries multiply back to `a`, and the
keys are strictly increasing. -/
theorem getFactorizationAbs_spec (a : Nat) (ha : 2 ≤ a) :
    (∀ pe ∈ getFactorizationAbs a, Nat.Prime pe.1 ∧ 1 ≤ pe.2) ∧
    ((getFactorizationAbs a).map (fun pe => pe.1 ^ pe.2)).prod = a ∧
    List.Pairwise (fun x y : Nat × Nat => x.1 < y.1) (getFactorizationAbs a) := by
  have h := factorLoop_spec a a 2 (by omega) (by omega)
    (fun d hd2 hdp => by omega) (by nlinarith)
  rw [getFactorizationAbs, if_neg (by omega)]
  exact ⟨fun pe hpe => ⟨(h.1 pe hpe).1, (h.1 pe hpe).2.1⟩, h.2⟩

theorem getFactorizationAbs_prime_pow (a p q : Nat) (hp : Nat.Prime p)
    (hq : 1 ≤ q) (h : a = p ^ q) : getFactorizationAbs a = [(p, q)] := by
  have ha : 2 ≤ a := by
    rw [h]
    calc 2 = 2 ^ 1 := rfl
    _ ≤ p ^ 1 := by simpa using hp.two_le
    _ ≤ p ^ q := Nat.pow_le_pow_right hp.one_lt.le hq
  obtain ⟨hall, hprod, hpair⟩ := getFactorizationAbs_spec a ha
  have hkey : ∀ pe ∈ getFactorizationAbs a, pe.1 = p := by
    rintro ⟨k, e⟩ hpe
    obtain ⟨hkprime, he1⟩ := hall _ hpe
    have hkdvd : k ∣ a := by
      calc k ∣ k ^ e := dvd_pow_self k (by omega)
      _ ∣ ((getFactorizationAbs a).map (fun pe => pe.1 ^ pe.2)).prod :=
        List.dvd_prod (List.mem_map_of_mem _ hpe)
      _ = a := hprod
    rw [h] at hkdvd
    exact (Nat.prime_dvd_prime_iff_eq hkprime hp).mp (hkprime.dvd_of_dvd_pow hkdvd)
  match hl : getFactorizationAbs a with
  | [] =>
    exfalso
    rw [hl] at hprod
    simp only [List.map_nil, List.prod_nil] at hprod
    omega
  | [(k, e)] =>
    have hk : k = p := hkey (k, e) (by rw [hl]; simp)
    subst hk
    rw [hl] at hprod
    simp at hprod
    rw [h] at hprod
    have he : e = q := Nat.pow_right_injective hp.two_le hprod
    rw [he]
  | (k1, e1) :: (k2, e2) :: rest =>
    exfalso
    have h1 : k1 = p := hkey (k1, e1) (by rw [hl]; simp)
    have h2 : k2 = p := hkey (k2, e2) (by rw [hl]; simp)
    rw [hl] at hpair
    rw [List.pairwise_cons] at hpair
    have := hpair.1 (k2, e2) (by simp)
    simp only at this
    omega

theorem getFactorizationAbs_semiprime (a p q : Nat) (hp : Nat.Prime p)
    (hq : Nat.Prime q) (hlt : p < q) (h : a = p * q) :
    getFactorizationAbs a = [(p, 1), (q, 1)] := by
  have ha : 2 ≤ a := by
    rw [h]
    calc 2 ≤ p := hp.two_le
    _ = p * 1 := by omega
    _ ≤ p * q := Nat.mul_le_mul_left p hq.one_lt.le
  obtain ⟨hall, hprod, hpair⟩ := getFactorizationAbs_spec a ha
  have hkey : ∀ pe ∈ getFactorizationAbs a, pe.1 = p ∨ pe.1 = q := by
    rintro ⟨k, e⟩ hpe
    obtain ⟨hkprime, he1⟩ := hall _ hpe
    have hkdvd : k ∣ a := by
      calc k ∣ k ^ e := dvd_pow_self k (by omega)
      _ ∣ ((getFactorizationAbs a).map (fun pe => pe.1 ^ pe.2)).prod :=
        List.dvd_prod (List.mem_map_of_mem _ hpe)
      _ = a := hprod
    rw [h] at hkdvd
    rcases (Nat.Prime.dvd_mul hkprime).mp hkdvd with hk | hk
    · exact Or.inl ((Nat.prime_dvd_prime_iff_eq hkprime hp).mp hk)
    · exact Or.inr ((Nat.prime_dvd_prime_iff_eq hkprime hq).mp hk)
  have hmem : ∀ s : Nat, Nat.Prime s → s ∣ a →
      ∃ pe ∈ getFactorizationAbs a, pe.1 = s := by
    intro s hs hsdvd
    rw [← hprod] at hsdvd
    obtain ⟨b, hb, hsb⟩ := (Prime.dvd_prod_iff hs.prime).mp hsdvd
    obtain ⟨pe, hpe, hpeb⟩ := List.mem_map.mp hb
    refine ⟨pe, hpe, ?_⟩
    obtain ⟨hpeprime, _⟩ := hall _ hpe
    rw [← hpeb] at hsb
    exact ((Nat.prime_dvd_prime_iff_eq hs hpeprime).mp (hs.dvd_of_dvd_pow hsb)).symm
  have hpin : ∃ pe ∈ getFactorizationAbs a, pe.1 = p := hmem p hp (h ▸ Dvd.intro q rfl)
  have hqin : ∃ pe ∈ getFactorizationAbs a, pe.1 = q := hmem q hq (h ▸ Dvd.intro_left p rfl)
  rcases hl : getFactorizationAbs a with _ | ⟨⟨k1, e1⟩, l1⟩
  · exfalso
    obtain ⟨pe, hpe, _⟩ := hpin
    rw [hl] at hpe
    simp at hpe
  rcases l1 with _ | ⟨⟨k2, e2⟩, l2⟩
  · exfalso
    obtain ⟨pe1, hpe1, hk1⟩ := hpin
    obtain ⟨pe2, hpe2, hk2⟩ := hqin
    rw [hl] at hpe1 hpe2
    simp only [List.mem_singleton] at hpe1 hpe2
    rw [hpe1] at hk1
    rw [hpe2] at hk2
    omega
  rcases l2 with _ | ⟨⟨k3, e3⟩, l3⟩
  · -- exactly two entries
    have h1 := hkey (k1, e1) (by rw [hl]; simp)
    have h2 := hkey (k2, e2) (by rw [hl]; simp)
    rw [hl] at hpair
    rw [List.pairwise_cons] at hpair
    have hk12 := hpair.1 (k2, e2) (by simp)
    simp only at hk12 h1 h2
    have hkp : k1 = p := by omega
    have hkq : k2 = q := by omega
    subst hkp
    subst hkq
    obtain ⟨_, he1⟩ := hall (k1, e1) (by rw [hl]; simp)
    obtain ⟨_, he2⟩ := hall (k2, e2) (by rw [hl]; simp)
    simp only at he1 he2
    rw [hl] at hprod
    simp only [List.map_cons, List.map_nil, List.prod_cons, List.prod_nil, mul_one] at hprod
    rw [h] at hprod
    have hppos : 0 < k1 := by have := hp.two_le; omega
    have hqpos : 0 < k2 := by have := hq.two_le; omega
    have he1' : e1 = 1 := by
      by_contra hc
      have he12 : 2 ≤ e1 := by omega
      have hdd : k1 * k1 ∣ k1 * k2 := by
        calc k1 * k1 = k1 ^ 2 := by ring
        _ ∣ k1 ^ e1 := Nat.pow_dvd_pow k1 he12
        _ ∣ k1 ^ e1 * k2 ^ e2 := Dvd.intro _ rfl
        _ = k1 * k2 := hprod
      have hpq : k1 ∣ k2 := (Nat.mul_dvd_mul_iff_left hppos).mp hdd
      have := (Nat.prime_dvd_prime_iff_eq hp hq).mp hpq
      omega
    have he2' : e2 = 1 := by
      by_contra hc
      have he22 : 2 ≤ e2 := by omega
      have hdd : k2 * k2 ∣ k2 * k1 := by
        calc k2 * k2 = k2 ^ 2 := by ring
        _ ∣ k2 ^ e2 := Nat.pow_dvd_pow k2 he22
        _ ∣ k1 ^ e1 * k2 ^ e2 := Dvd.intro_left _ rfl
        _ = k1 * k2 := hprod
        _ = k2 * k1 := by ring
      have hqp : k2 ∣ k1 := (Nat.mul_dvd_mul_iff_left hqpos).mp hdd
      have := (Nat.prime_dvd_prime_iff_eq hq hp).mp hqp
      omega
    rw [he1', he2']
  · -- three or more entries: impossible
    exfalso
    have h1 := hkey (k1, e1) (by rw [hl]; simp)
    have h2 := hkey (k2, e2) (by rw [hl]; simp)
    have h3 := hkey (k3, e3) (by rw [hl]; simp)
    rw [hl] at hpair
    rw [List.pairwise_cons] at hpair
    obtain ⟨hh1, hpair2⟩ := hpair
    rw [List.pairwise_cons] at hpair2
    have ha2 := hh1 (k2, e2) (by simp)
    have ha3 := hh1 (k3, e3) (by simp)
    have hb3 := hpair2.1 (k3, e3) (by simp)
    simp only at ha2 ha3 hb3 h1 h2 h3
    omega

/-- C3: within the sieve range, `isColorless` holds exactly on odd
composites (other than 2,3,5,7) that are either a prime to an odd
prime power, or a product of two distinct primes; every other integer
is not colorless. -/
theorem isColorless_spec (n : Int) (ha : n.natAbs ≤ MAX_N) :
    isColorless n = true ↔ ColorlessSpec n.natAbs := by
  rw [isColorless]
  generalize hgen : n.natAbs = a at ha
  clear hgen n
  by_cases h2 : a < 2
  · rw [isColorlessAbs, if_pos (Or.inl h2)]
    refine iff_of_false (by simp) ?_
    rintro ⟨_, hge, _⟩
    omega
  push_neg at h2
  by_cases hpr : Nat.Prime a
  · have ht : IS_PRIME.getD a false = true := (IS_PRIME_getD a).mpr ⟨hpr, ha⟩
    rw [isColorlessAbs, if_pos (Or.inr ht)]
    refine iff_of_false (by simp) ?_
    rintro ⟨_, _, hnp, _⟩
    exact hnp hpr
  have hf : IS_PRIME.getD a false = false := by
    rcases hb : IS_PRIME.getD a false with _ | _
    · rfl
    · exact absurd ((IS_PRIME_getD a).mp hb).1 hpr
  have hne : ¬(a = 2 ∨ a = 3 ∨ a = 5 ∨ a = 7) := by
    rintro (rfl | rfl | rfl | rfl) <;> exact hpr (by norm_num)
  rw [isColorlessAbs, if_neg (by
    push_neg
    exact ⟨by omega, by rw [hf]; simp⟩), if_neg hne]
  by_cases hev : a % 2 = 0
  · rw [if_pos hev]
    refine iff_of_false (by simp) ?_
    rintro ⟨hodd, _⟩
    rw [Nat.odd_iff] at hodd
    omega
  rw [if_neg hev]
  have hodda : Odd a := Nat.odd_iff.mpr (by omega)
  have hne2 : a ≠ 2 := fun h => hne (Or.inl h)
  have hne3 : a ≠ 3 := fun h => hne (Or.inr (Or.inl h))
  have hne5 : a ≠ 5 := fun h => hne (Or.inr (Or.inr (Or.inl h)))
  have hne7 : a ≠ 7 := fun h => hne (Or.inr (Or.inr (Or.inr h)))
  obtain ⟨hall, hprod, hpair⟩ := getFactorizationAbs_spec a h2
  rcases hl : getFactorizationAbs a with _ | ⟨⟨p, e⟩, l1⟩
  · exfalso
    rw [hl] at hprod
    simp only [List.map_nil, List.prod_nil] at hprod
    omega
  rcases l1 with _ | ⟨⟨p2, e2⟩, l2⟩
  · -- single entry: a = p ^ e
    have hae : a = p ^ e := by
      rw [hl] at hprod
      simpa using hprod.symm
    obtain ⟨hpprime, he1⟩ := hall (p, e) (by rw [hl]; simp)
    have heMAX : e ≤ MAX_N := by
      have hx1 : e < 2 ^ e := Nat.lt_two_pow e
      have hx2 : 2 ^ e ≤ p ^ e := Nat.pow_le_pow_left hpprime.two_le e
      omega
    simp only [hl, List.map_cons, List.map_nil, List.length_cons, List.length_nil,
      List.headD_cons, List.sum_cons, List.sum_nil, Nat.zero_add, Nat.add_zero]
    rw [if_pos trivial]
    have hcode : (if IS_PRIME.getD e false = true ∧ e % 2 = 0 then false
        else if IS_PRIME.getD e false = true ∧ e % 2 ≠ 0 then true
        else if e = 2 ∧ 1 = 2 then true
        else false) = true ↔ (Nat.Prime e ∧ e % 2 ≠ 0) := by
      by_cases hep : IS_PRIME.getD e false = true
      · have heprime : Nat.Prime e := ((IS_PRIME_getD e).mp hep).1
        by_cases heo : e % 2 = 0
        · rw [if_pos ⟨hep, heo⟩]
          simp [heo]
        · rw [if_neg (fun h => heo h.2), if_pos ⟨hep, heo⟩]
          simp [heprime, heo]
      · have henp : ¬ Nat.Prime e := fun hc =>
          hep ((IS_PRIME_getD e).mpr ⟨hc, heMAX⟩)
        rw [if_neg (fun h => hep h.1), if_neg (fun h => hep h.1),
          if_neg (by omega)]
        simp [henp]
    rw [hcode]
    constructor
    · rintro ⟨heprime, heodd⟩
      exact ⟨hodda, h2, hpr, hne2, hne3, hne5, hne7,
        Or.inl ⟨p, e, hpprime, heprime, Nat.odd_iff.mpr (by omega), hae⟩⟩
    · rintro ⟨_, _, _, _, _, _, _, hdisj | hdisj⟩
      · obtain ⟨p', q', hp', hq', hoq', hrep⟩ := hdisj
        have hshape := getFactorizationAbs_prime_pow a p' q' hp' hq'.one_lt.le hrep
        rw [hl] at hshape
        simp only [List.cons.injEq, Prod.mk.injEq] at hshape
        obtain ⟨⟨hpp', hee'⟩, _⟩ := hshape
        rw [hee']
        rw [Nat.odd_iff] at hoq'
        exact ⟨hq', by omega⟩
      · obtain ⟨p', q', hp', hq', hne', hrep⟩ := hdisj
        exfalso
        rcases Nat.lt_trichotomy p' q' with hlt | heq | hgt
        · have hshape := getFactorizationAbs_semiprime a p' q' hp' hq' hlt hrep
          rw [hl] at hshape
          simp at hshape
        · exact hne' heq
        · have hshape := getFactorizationAbs_semiprime a q' p' hq' hp' hgt
            (by rw [hrep]; ring)
          rw [hl] at hshape
          simp at hshape
  · -- at least two entries
    obtain ⟨hpprime, he1⟩ := hall (p, e) (by rw [hl]; simp)
    obtain ⟨hp2prime, he21⟩ := hall (p2, e2) (by rw [hl]; simp)
    have hplt : p < p2 := by
      rw [hl, List.pairwise_cons] at hpair
      have := hpair.1 (p2, e2) (by simp)
      simpa using this
    simp only [hl, List.map_cons, List.length_cons, List.sum_cons, List.length_map]
    rw [if_neg (by omega)]
    by_cases hcond : e + (e2 + (l2.map Prod.snd).sum) = 2 ∧ l2.length + 1 + 1 = 2
    · rw [if_pos hcond]
      obtain ⟨hsum, hlen⟩ := hcond
      have hl2nil : l2 = [] := List.length_eq_zero.mp (by omega)
      subst hl2nil
      have he : e = 1 := by simp at hsum; omega
      have he2 : e2 = 1 := by simp at hsum; omega
      subst he
      subst he2
      have hae : a = p * p2 := by
        rw [hl] at hprod
        simpa using hprod.symm
      refine iff_of_true rfl ⟨hodda, h2, hpr, hne2, hne3, hne5, hne7,
        Or.inr ⟨p, p2, hpprime, hp2prime, by omega, hae⟩⟩
    · rw [if_neg hcond]
      refine iff_of_false (by simp) ?_
      rintro ⟨_, _, _, _, _, _, _, hdisj | hdisj⟩
      · obtain ⟨p', q', hp', hq', hoq', hrep⟩ := hdisj
        have hshape := getFactorizationAbs_prime_pow a p' q' hp' hq'.one_lt.le hrep
        rw [hl] at hshape
        simp at hshape
      · obtain ⟨p', q', hp', hq', hne', hrep⟩ := hdisj
        have hshape2 : getFactorizationAbs a = [(min p' q', 1), (max p' q', 1)] := by
          rcases Nat.lt_trichotomy p' q' with hlt | heq | hgt
          · rw [min_eq_left hlt.le, max_eq_right hlt.le]
            exact getFactorizationAbs_semiprime a p' q' hp' hq' hlt hrep
          · exact absurd heq hne'
          · rw [min_eq_right hgt.le, max_eq_left hgt.le]
            exact getFactorizationAbs_semiprime a q' p' hq' hp' hgt (by rw [hrep]; ring)
        rw [hl] at hshape2
        simp only [List.cons.injEq, Prod.mk.injEq] at hshape2
        obtain ⟨⟨_, he'⟩, ⟨_, he2'⟩, hl2'⟩ := hshape2
        apply hcond
        subst hl2'
        simp [he', he2']

/-- C3 witness at `n = 27 = 3^3`: in range, and colorless by the
characterization (27 is an odd composite equal to a prime raised to an
odd prime exponent). -/
theorem isColorless_spec_witness :
    (27 : Int).natAbs ≤ MAX_N ∧
      (isColorless 27 = true ↔ ColorlessSpec (27 : Int).natAbs) ∧
      isColorless 27 = true := by
  have hspec : ColorlessSpec (27 : Int).natAbs := by
    refine ⟨Nat.odd_iff.mpr rfl, by norm_num, by norm_num, by norm_num, by norm_num,
      by norm_num, by norm_num, Or.inl ⟨3, 3, by norm_num, by norm_num,
        Nat.odd_iff.mpr rfl, by norm_num⟩⟩
  exact ⟨by decide, isColorless_spec 27 (by decide),
    (isColorless_spec 27 (by decide)).mpr hspec⟩

/-- For every magnitude and valid dimension, `getColorInfo` produces
a defined color record (it can only throw on an invalid dimension). -/
theorem getColorInfo_isSome (n : Int) (d : Nat) (hd : d < 6) :
    (getColorInfo n d).isSome = true := by
  by_cases h0 : n.natAbs = 0
  · rw [getColorInfo, if_pos h0]
    rfl
  by_cases h1 : n.natAbs = 1
  · rw [getColorInfo, if_neg h0, if_pos h1]
    rfl
  have hsh : ∃ sh, shifts.get? d = some sh := by
    interval_cases d
    · exact ⟨_, rfl⟩
    · exact ⟨_, rfl⟩
    · exact ⟨_, rfl⟩
    · exact ⟨_, rfl⟩
    · exact ⟨_, rfl⟩
    · exact ⟨_, rfl⟩
  obtain ⟨sh, hsh⟩ := hsh
  rw [getColorInfo, if_neg h0, if_neg h1]
  simp only [hsh]
  simp only [apply_ite Option.isSome, Option.isSome_some, ite_self]

/-- `∃`-form of `getColorInfo_isSome`. -/
theorem getColorInfo_total (n : Int) (d : Nat) (hd : d < 6) :
    ∃ c, getColorInfo n d = some c :=
  Option.isSome_iff_exists.mp (getColorInfo_isSome n d hd)

/-- C6 (amended): a magnitude beyond `MAX_N` is not rejected —
classification silently returns defaults: transparency is `false`
(the `undefined` prefix-count lookup), and the color chain still
produces a defined record for every valid dimension. -/
theorem out_of_range_default (n : Int) (d : Nat) (h : MAX_N < n.natAbs) (hd : d < 6) :
    isTransparent n = false ∧ ∃ c, getColorInfo n d = some c := by
  constructor
  · rw [isTransparent]
    simp only [PRIME_COUNT_get?_of_gt _ h, Option.elim_none, Bool.and_false]
  · exact getColorInfo_total n d hd

/-- C6 witness at `n = 1693`, dimension 0. -/
theorem out_of_range_default_witness :
    MAX_N < (1693 : Int).natAbs ∧
      (isTransparent 1693 = false ∧ ∃ c, getColorInfo 1693 0 = some c) :=
  ⟨by decide, out_of_range_default 1693 0 (by decide) (by decide)⟩

/-- C6 counterexample: 1693 (prime, beyond `MAX_N = 1680`) is
classified without any out-of-range error: transparency comes back
`false` and the color lookup returns a record. -/
theorem out_of_range_no_error :
    MAX_N < (1693 : Int).natAbs ∧ isTransparent 1693 = false ∧
      (getColorInfo 1693 0).isSome = true := by
  refine ⟨by decide, ?_, ?_⟩
  · rw [isTransparent]
    simp only [PRIME_COUNT_get?_of_gt (1693 : Int).natAbs (by decide),
      Option.elim_none, Bool.and_false]
  · obtain ⟨c, hc⟩ := getColorInfo_total 1693 0 (by decide)
    rw [hc]
    rfl
